import Mathlib

/-!
Verification of the indicator / signal pipeline of `Final_Project.py`.

The program keeps a pandas dataframe with columns `Date`, `Adj_Close`,
`Volume` (plus derived indicator columns).  We embed it shallowly:

* a dataframe row becomes a `PriceRec`; naive calendar dates are embedded
  as `Int` (days since an arbitrary epoch), which carries exactly the
  order structure the program uses;
* float prices become `ℚ` (exact value semantics); the one place where
  IEEE special values matter (`calculate_scale_value`, where numpy turns
  division by a zero maximum into `inf` instead of raising) uses an
  explicit `PyFloat` domain with `nan`/`inf`;
* `pd.concat` is list append; `sort_values('Date')` runs with the
  default `kind='quicksort'`, which pandas documents as NOT stable, so
  it is specified only up to its contract `IsSortValues`: the output is
  a date-sorted permutation of the input, with the relative order of
  equal-date rows unspecified.  `sortByDate` (a stable insertion sort)
  is one admissible outcome and gives the executable `update_df`;
  properties that depend on the tie order are settled against the
  contract (`MergeResult`), quantifying over every admissible outcome.
  `drop_duplicates('Date', keep='last')` keeps a row exactly when no
  later row has the same date;
* missing values (NaN) in indicator columns become `Option ℚ`, and the
  Python semantics "any comparison with NaN is False" is modelled by
  `Bool`-valued comparison helpers that return `false` on `none`.
-/

namespace FinProj

/-- A row of the price dataframe: naive calendar date (days since an
epoch), adjusted close and volume, mirroring the `Date`, `Adj_Close`,
`Volume` columns selected by `get_stock_data`. -/
structure PriceRec where
  date : Int
  adj_close : ℚ
  volume : ℕ
deriving DecidableEq

/-- Sorted (non-strictly) ascending by date. -/
abbrev SortedLe (l : List PriceRec) : Prop :=
  l.Pairwise (fun a b => a.date ≤ b.date)

/-- Sorted strictly ascending by date (the Series Store invariant). -/
abbrev SortedLt (l : List PriceRec) : Prop :=
  l.Pairwise (fun a b => a.date < b.date)

/-- Insertion of a row into a date-sorted list, placing the new row
after every row whose date is ≤ its own (so this particular sort keeps
insertion order on equal dates). -/
def insertByDate (r : PriceRec) : List PriceRec → List PriceRec
  | [] => [r]
  | s :: ss => if s.date ≤ r.date then s :: insertByDate r ss else r :: s :: ss

/-- One admissible outcome of `df.sort_values('Date')` of line 138: a
date-sorted permutation of the input.  The program's sort (default
`kind='quicksort'`) is not stable, so it promises only the contract
`IsSortValues`; this insertion sort realizes the contract with the
concat order kept on ties.  Tie-order-sensitive facts must NOT be read
off this function — they are stated against `MergeResult` instead. -/
def sortByDate (l : List PriceRec) : List PriceRec :=
  l.foldl (fun acc r => insertByDate r acc) []

/-- The contract of `sort_values('Date')` with the default (unstable)
quicksort: the output is a permutation of the input, non-strictly
sorted by date; the relative order of equal-date rows is unspecified
and numpy's introsort concretely reorders them on arrays of 17 or more
elements. -/
abbrev IsSortValues (input out : List PriceRec) : Prop :=
  List.Perm out input ∧ SortedLe out

/-- `drop_duplicates('Date', keep='last')` of line 138: a row survives
exactly when no later row carries the same date. -/
def dropDupKeepLast : List PriceRec → List PriceRec
  | [] => []
  | r :: rs =>
    if rs.any (fun s => s.date == r.date) then dropDupKeepLast rs
    else r :: dropDupKeepLast rs

/-- `update_df(df, live_df)` of lines 131-140, instantiated with the
stable sort outcome: `None` or an empty live frame is a no-op;
otherwise concatenate, sort by date and drop duplicate dates keeping
the last occurrence in sorted order.  Which of two equal-date rows is
"last" depends on the sort's unspecified tie order, so this function
pins down only one of the program's possible behaviors. -/
def update_df (df : List PriceRec) (live_df : Option (List PriceRec)) :
    List PriceRec :=
  match live_df with
  | none => df
  | some l => if l = [] then df else dropDupKeepLast (sortByDate (df ++ l))

/-- All results `update_df(df, live_df)` can produce once the sort is
only held to its contract: `None`/empty is the identity, otherwise the
result is dedup-keep-last of SOME date-sorted permutation of the
concatenation. -/
def MergeResult (df : List PriceRec) (live_df : Option (List PriceRec))
    (out : List PriceRec) : Prop :=
  match live_df with
  | none => out = df
  | some l =>
    if l = [] then out = df
    else ∃ s, IsSortValues (df ++ l) s ∧ out = dropDupKeepLast s

theorem insertByDate_perm (r : PriceRec) (l : List PriceRec) :
    List.Perm (insertByDate r l) (r :: l) := by
  induction l with
  | nil => rfl
  | cons s ss ih =>
    by_cases h : s.date ≤ r.date
    · simp only [insertByDate, if_pos h]
      exact (ih.cons s).trans (List.Perm.swap r s ss)
    · simp [insertByDate, if_neg h]

theorem mem_insertByDate {x r : PriceRec} {l : List PriceRec} :
    x ∈ insertByDate r l ↔ x = r ∨ x ∈ l := by
  rw [(insertByDate_perm r l).mem_iff]
  simp

theorem sortedLe_insertByDate {r : PriceRec} {l : List PriceRec}
    (hl : SortedLe l) : SortedLe (insertByDate r l) := by
  induction l with
  | nil => simp [insertByDate]
  | cons s ss ih =>
    rcases List.pairwise_cons.mp hl with ⟨hs, hss⟩
    by_cases h : s.date ≤ r.date
    · simp only [insertByDate, if_pos h]
      refine List.pairwise_cons.mpr ⟨?_, ih hss⟩
      intro x hx
      rcases mem_insertByDate.mp hx with hx | hx
      · exact hx ▸ h
      · exact hs x hx
    · push_neg at h
      simp only [insertByDate, if_neg (not_le.mpr h)]
      refine List.pairwise_cons.mpr ⟨?_, hl⟩
      intro x hx
      rcases List.mem_cons.mp hx with hx | hx
      · exact hx ▸ le_of_lt h
      · exact le_trans (le_of_lt h) (hs x hx)

theorem filter_insertByDate (d : Int) (r : PriceRec) (l : List PriceRec)
    (hl : SortedLe l) :
    (insertByDate r l).filter (fun s => s.date == d) =
      if r.date = d then l.filter (fun s => s.date == d) ++ [r]
      else l.filter (fun s => s.date == d) := by
  induction l with
  | nil =>
    by_cases hr : r.date = d <;>
      simp [insertByDate, List.filter_cons, hr]
  | cons s ss ih =>
    rcases List.pairwise_cons.mp hl with ⟨hs, hss⟩
    by_cases h : s.date ≤ r.date
    · simp only [insertByDate, if_pos h]
      by_cases hsd : s.date = d
      · by_cases hr : r.date = d <;>
          simp [List.filter_cons, hsd, ih hss, hr]
      · by_cases hr : r.date = d <;>
          simp [List.filter_cons, hsd, ih hss, hr]
    · push_neg at h
      simp only [insertByDate, if_neg (not_le.mpr h)]
      by_cases hr : r.date = d
      · have hnil : (s :: ss).filter (fun s => s.date == d) = [] := by
          refine List.filter_eq_nil_iff.mpr ?_
          intro x hx
          rcases List.mem_cons.mp hx with hx | hx
          · subst hx
            simp only [beq_iff_eq]
            omega
          · have := hs x hx
            simp only [beq_iff_eq]
            omega
        simp [List.filter_cons, hr, hnil]
      · simp [List.filter_cons, hr]

theorem filter_foldl_insert (d : Int) (l : List PriceRec) :
    ∀ acc : List PriceRec, SortedLe acc →
      (l.foldl (fun a r => insertByDate r a) acc).filter
          (fun s => s.date == d) =
        acc.filter (fun s => s.date == d) ++
          l.filter (fun s => s.date == d) := by
  induction l with
  | nil => intro acc _; simp
  | cons r rs ih =>
    intro acc hacc
    have h1 := ih (insertByDate r acc) (sortedLe_insertByDate hacc)
    simp only [List.foldl_cons] at *
    rw [h1, filter_insertByDate d r acc hacc]
    by_cases hr : r.date = d <;> simp [List.filter_cons, hr]

theorem sortedLe_foldl_insert (l : List PriceRec) :
    ∀ acc : List PriceRec, SortedLe acc →
      SortedLe (l.foldl (fun a r => insertByDate r a) acc) := by
  induction l with
  | nil => intro acc hacc; simpa using hacc
  | cons r rs ih =>
    intro acc hacc
    exact ih (insertByDate r acc) (sortedLe_insertByDate hacc)

theorem perm_foldl_insert (l : List PriceRec) :
    ∀ acc : List PriceRec,
      List.Perm (l.foldl (fun a r => insertByDate r a) acc) (acc ++ l) := by
  induction l with
  | nil => intro acc; simp
  | cons r rs ih =>
    intro acc
    simp only [List.foldl_cons]
    refine (ih (insertByDate r acc)).trans ?_
    have h1 : List.Perm (insertByDate r acc ++ rs) ((r :: acc) ++ rs) :=
      (insertByDate_perm r acc).append_right rs
    refine h1.trans ?_
    simpa using List.perm_middle.symm

theorem sortByDate_filter (d : Int) (l : List PriceRec) :
    (sortByDate l).filter (fun s => s.date == d) =
      l.filter (fun s => s.date == d) := by
  have := filter_foldl_insert d l [] (by simp)
  simpa [sortByDate] using this

theorem sortByDate_sortedLe (l : List PriceRec) : SortedLe (sortByDate l) :=
  sortedLe_foldl_insert l [] (by simp)

theorem sortByDate_perm (l : List PriceRec) : List.Perm (sortByDate l) l := by
  simpa using perm_foldl_insert l []

theorem dropDupKeepLast_sublist (l : List PriceRec) :
    List.Sublist (dropDupKeepLast l) l := by
  induction l with
  | nil => simp [dropDupKeepLast]
  | cons r rs ih =>
    by_cases h : rs.any (fun s => s.date == r.date)
    · simp only [dropDupKeepLast, if_pos h]
      exact ih.cons r
    · simp only [dropDupKeepLast, if_neg h]
      exact ih.cons₂ r

theorem dropDupKeepLast_filter (d : Int) (l : List PriceRec) :
    (dropDupKeepLast l).filter (fun s => s.date == d) =
      ((l.filter (fun s => s.date == d)).getLast?).toList := by
  induction l with
  | nil => simp [dropDupKeepLast]
  | cons r rs ih =>
    by_cases h : rs.any (fun s => s.date == r.date)
    · have e1 : dropDupKeepLast (r :: rs) = dropDupKeepLast rs := by
        simp only [dropDupKeepLast, if_pos h]
      by_cases hr : r.date = d
      · have hne : rs.filter (fun s => s.date == d) ≠ [] := by
          rcases List.any_eq_true.mp h with ⟨x, hx, hxd⟩
          have hxd2 : x.date = r.date := by simpa using hxd
          intro hnil
          have hmem : x ∈ rs.filter (fun s => s.date == d) :=
            List.mem_filter.mpr ⟨hx, by simp [hxd2, hr]⟩
          rw [hnil] at hmem
          simp at hmem
        have e2 : (r :: rs).filter (fun s => s.date == d)
            = r :: rs.filter (fun s => s.date == d) :=
          List.filter_cons_of_pos (by simp [hr])
        rcases List.exists_cons_of_ne_nil hne with ⟨x, xs, hx⟩
        rw [e1, ih, e2, hx, List.getLast?_cons_cons]
      · have e2 : (r :: rs).filter (fun s => s.date == d)
            = rs.filter (fun s => s.date == d) :=
          List.filter_cons_of_neg (by simp [hr])
        rw [e1, ih, e2]
    · have e1 : dropDupKeepLast (r :: rs) = r :: dropDupKeepLast rs := by
        simp only [dropDupKeepLast, if_neg h]
      have hnone : ∀ x ∈ rs, ¬ x.date = r.date := by
        intro x hx
        have h2 : rs.any (fun s => s.date == r.date) = false :=
          Bool.not_eq_true _ |>.mp h
        have := List.any_eq_false.mp h2 x hx
        simpa using this
      by_cases hr : r.date = d
      · have hnil : rs.filter (fun s => s.date == d) = [] := by
          refine List.filter_eq_nil_iff.mpr ?_
          intro x hx
          have := hnone x hx
          simp only [beq_iff_eq]
          omega
        have e2 : (r :: rs).filter (fun s => s.date == d)
            = r :: rs.filter (fun s => s.date == d) :=
          List.filter_cons_of_pos (by simp [hr])
        have e3 : (r :: dropDupKeepLast rs).filter (fun s => s.date == d)
            = r :: (dropDupKeepLast rs).filter (fun s => s.date == d) :=
          List.filter_cons_of_pos (by simp [hr])
        rw [e1, e3, ih, e2, hnil]
        rfl
      · have e2 : (r :: rs).filter (fun s => s.date == d)
            = rs.filter (fun s => s.date == d) :=
          List.filter_cons_of_neg (by simp [hr])
        have e3 : (r :: dropDupKeepLast rs).filter (fun s => s.date == d)
            = (dropDupKeepLast rs).filter (fun s => s.date == d) :=
          List.filter_cons_of_neg (by simp [hr])
        rw [e1, e3, ih, e2]

theorem sortedLt_dropDupKeepLast {l : List PriceRec} (hl : SortedLe l) :
    SortedLt (dropDupKeepLast l) := by
  induction l with
  | nil => simp [dropDupKeepLast]
  | cons r rs ih =>
    rcases List.pairwise_cons.mp hl with ⟨hr, hrs⟩
    by_cases h : rs.any (fun s => s.date == r.date)
    · simp only [dropDupKeepLast, if_pos h]
      exact ih hrs
    · simp only [dropDupKeepLast, if_neg h]
      refine List.pairwise_cons.mpr ⟨?_, ih hrs⟩
      intro x hx
      have hmem : x ∈ rs := (dropDupKeepLast_sublist rs).subset hx
      have hle := hr x hmem
      have h2 : rs.any (fun s => s.date == r.date) = false :=
        Bool.not_eq_true _ |>.mp h
      have hne := List.any_eq_false.mp h2 x hmem
      simp only [beq_iff_eq] at hne
      omega

theorem filter_eq_single_of_sortedLt {l : List PriceRec} (hl : SortedLt l)
    {r : PriceRec} (hr : r ∈ l) :
    l.filter (fun s => s.date == r.date) = [r] := by
  induction l with
  | nil => cases hr
  | cons x xs ih =>
    rcases List.pairwise_cons.mp hl with ⟨hx, hxs⟩
    rcases List.mem_cons.mp hr with hEq | hMem
    · subst hEq
      have hnil : xs.filter (fun s => s.date == r.date) = [] := by
        refine List.filter_eq_nil_iff.mpr ?_
        intro y hy
        have := hx y hy
        simp only [beq_iff_eq]
        omega
      rw [List.filter_cons_of_pos (by simp), hnil]
    · have hlt : x.date < r.date := hx r hMem
      rw [List.filter_cons_of_neg (by simp only [beq_iff_eq]; omega)]
      exact ih hxs hMem

theorem update_df_filter (df live : List PriceRec) (hlive : live ≠ [])
    (d : Int) :
    (update_df df (some live)).filter (fun s => s.date == d) =
      (((df ++ live).filter (fun s => s.date == d)).getLast?).toList := by
  simp only [update_df, if_neg hlive]
  rw [dropDupKeepLast_filter, sortByDate_filter]

theorem date_inj_of_sortedLt {l : List PriceRec} (hl : SortedLt l) :
    ∀ a ∈ l, ∀ b ∈ l, a.date = b.date → a = b := by
  induction l with
  | nil => intro a ha; cases ha
  | cons x xs ih =>
    rcases List.pairwise_cons.mp hl with ⟨hx, hxs⟩
    intro a ha b hb hab
    rcases List.mem_cons.mp ha with ha | ha <;>
      rcases List.mem_cons.mp hb with hb | hb
    · rw [ha, hb]
    · exfalso; rw [ha] at hab; have := hx b hb; omega
    · exfalso; rw [hb] at hab; have := hx a ha; omega
    · exact ih hxs a ha b hb hab

theorem eq_of_perm_sortedLe {l₁ : List PriceRec} :
    ∀ {l₂ : List PriceRec}, List.Perm l₁ l₂ → SortedLe l₁ → SortedLe l₂ →
      (∀ a ∈ l₁, ∀ b ∈ l₁, a.date = b.date → a = b) → l₁ = l₂ := by
  induction l₁ with
  | nil =>
    intro l₂ hp _ _ _
    exact (List.Perm.eq_nil hp.symm).symm
  | cons a t₁ ih =>
    intro l₂ hp h₁ h₂ hkey
    match l₂ with
    | [] => exact absurd (List.Perm.eq_nil hp) (by simp)
    | b :: t₂ =>
      have hamem : a ∈ b :: t₂ := hp.subset (List.mem_cons_self a t₁)
      have hbmem : b ∈ a :: t₁ := hp.symm.subset (List.mem_cons_self b t₂)
      have hab : a = b := by
        rcases List.mem_cons.mp hbmem with hb | hb
        · exact hb.symm
        · rcases List.mem_cons.mp hamem with ha | ha
          · exact ha
          · have h1 : a.date ≤ b.date := (List.pairwise_cons.mp h₁).1 b hb
            have h2 : b.date ≤ a.date := (List.pairwise_cons.mp h₂).1 a ha
            exact hkey a (List.mem_cons_self a t₁)
              b (List.mem_cons_of_mem a hb) (by omega)
      subst hab
      have hp2 : List.Perm t₁ t₂ := hp.cons_inv
      have hkey2 : ∀ x ∈ t₁, ∀ y ∈ t₁, x.date = y.date → x = y := by
        intro x hx y hy hxy
        exact hkey x (List.mem_cons_of_mem a hx) y (List.mem_cons_of_mem a hy) hxy
      rw [ih hp2 (List.pairwise_cons.mp h₁).2 (List.pairwise_cons.mp h₂).2 hkey2]

/-- Each row duplicated in place: the unique date-sorted arrangement of
`l ++ l` when `l` is strictly sorted. -/
def doubleEach : List PriceRec → List PriceRec
  | [] => []
  | a :: t => a :: a :: doubleEach t

theorem mem_doubleEach {x : PriceRec} :
    ∀ {l : List PriceRec}, x ∈ doubleEach l ↔ x ∈ l := by
  intro l
  induction l with
  | nil => simp [doubleEach]
  | cons a t ih => simp [doubleEach, ih, List.mem_cons, or_assoc]

theorem perm_append_self_doubleEach (l : List PriceRec) :
    List.Perm (l ++ l) (doubleEach l) := by
  induction l with
  | nil => rfl
  | cons a t ih =>
    show List.Perm (a :: (t ++ a :: t)) (a :: a :: doubleEach t)
    refine List.Perm.cons a ?_
    refine (List.perm_middle).trans ?_
    exact ih.cons a

theorem sortedLe_doubleEach {l : List PriceRec} (hl : SortedLt l) :
    SortedLe (doubleEach l) := by
  induction l with
  | nil => simp [doubleEach]
  | cons a t ih =>
    rcases List.pairwise_cons.mp hl with ⟨ha, ht⟩
    refine List.pairwise_cons.mpr ⟨?_, List.pairwise_cons.mpr ⟨?_, ih ht⟩⟩
    · intro x hx
      rcases List.mem_cons.mp hx with hx | hx
      · rw [hx]
      · exact le_of_lt (ha x (mem_doubleEach.mp hx))
    · intro x hx
      exact le_of_lt (ha x (mem_doubleEach.mp hx))

theorem dropDup_doubleEach {l : List PriceRec} (hl : SortedLt l) :
    dropDupKeepLast (doubleEach l) = l := by
  induction l with
  | nil => simp [doubleEach, dropDupKeepLast]
  | cons a t ih =>
    rcases List.pairwise_cons.mp hl with ⟨ha, ht⟩
    have h1 : (a :: doubleEach t).any (fun s => s.date == a.date) = true := by
      simp
    have h2 : (doubleEach t).any (fun s => s.date == a.date) = false := by
      refine List.any_eq_false.mpr ?_
      intro x hx
      have := ha x (mem_doubleEach.mp hx)
      simp only [beq_iff_eq]
      omega
    show dropDupKeepLast (a :: a :: doubleEach t) = a :: t
    rw [show dropDupKeepLast (a :: a :: doubleEach t)
          = dropDupKeepLast (a :: doubleEach t) from by
        simp only [dropDupKeepLast, h1, if_pos]]
    rw [show dropDupKeepLast (a :: doubleEach t)
          = a :: dropDupKeepLast (doubleEach t) from by
        simp only [dropDupKeepLast, h2]
        simp]
    rw [ih ht]

theorem update_df_mergeResult (df : List PriceRec)
    (live : Option (List PriceRec)) :
    MergeResult df live (update_df df live) := by
  match live with
  | none => rfl
  | some l =>
    by_cases h : l = []
    · subst h
      simp [MergeResult, update_df]
    · simp only [MergeResult, update_df, if_neg h]
      exact ⟨sortByDate (df ++ l),
        show List.Perm (sortByDate (df ++ l)) (df ++ l) ∧
            SortedLe (sortByDate (df ++ l)) from
          ⟨sortByDate_perm (df ++ l), sortByDate_sortedLe (df ++ l)⟩, rfl⟩

theorem mergeResult_filter_singleton {df l out : List PriceRec}
    (hl : l ≠ []) (hm : MergeResult df (some l) out) {d : Int}
    {r : PriceRec}
    (hsingle : (df ++ l).filter (fun s => s.date == d) = [r]) :
    out.filter (fun s => s.date == d) = [r] := by
  simp only [MergeResult, if_neg hl] at hm
  rcases hm with ⟨s, ⟨hperm, _hsorted⟩, rfl⟩
  have hpf : List.Perm (s.filter (fun x => x.date == d))
      ((df ++ l).filter (fun x => x.date == d)) :=
    hperm.filter (fun x => x.date == d)
  rw [hsingle] at hpf
  have hsf := List.perm_singleton.mp hpf
  rw [dropDupKeepLast_filter, hsf]
  rfl

/-- The existing store of the C1 failing input: dates 1-8 plus date 100
at price 10. -/
def dfBug : List PriceRec :=
  [⟨1, 1, 1⟩, ⟨2, 1, 1⟩, ⟨3, 1, 1⟩, ⟨4, 1, 1⟩, ⟨5, 1, 1⟩, ⟨6, 1, 1⟩,
   ⟨7, 1, 1⟩, ⟨8, 1, 1⟩, ⟨100, 10, 1⟩]

/-- The incoming frame of the C1 failing input: dates 9-11, date 100 at
price 12 (the same-day correction that is supposed to win) and dates
200-203; the concatenation has 17 rows, past the threshold where numpy
introsort stops being a (stable) insertion sort and reorders equal
keys. -/
def liveBug : List PriceRec :=
  [⟨9, 1, 1⟩, ⟨10, 1, 1⟩, ⟨11, 1, 1⟩, ⟨100, 12, 1⟩, ⟨200, 1, 1⟩,
   ⟨201, 1, 1⟩, ⟨202, 1, 1⟩, ⟨203, 1, 1⟩]

/-- A date-sorted permutation of `dfBug ++ liveBug` with the incoming
date-100 row placed BEFORE the existing one — the tie order numpy
introsort concretely produces on this input. -/
def sBug : List PriceRec :=
  [⟨1, 1, 1⟩, ⟨2, 1, 1⟩, ⟨3, 1, 1⟩, ⟨4, 1, 1⟩, ⟨5, 1, 1⟩, ⟨6, 1, 1⟩,
   ⟨7, 1, 1⟩, ⟨8, 1, 1⟩, ⟨9, 1, 1⟩, ⟨10, 1, 1⟩, ⟨11, 1, 1⟩,
   ⟨100, 12, 1⟩, ⟨100, 10, 1⟩, ⟨200, 1, 1⟩, ⟨201, 1, 1⟩, ⟨202, 1, 1⟩,
   ⟨203, 1, 1⟩]

/-- C1 (code bug): the spec — and the code's own `keep='last'` over the
concatenation order — intend the incoming row to win on a shared date,
but `sort_values` with the default quicksort promises only a
date-sorted permutation, ties unspecified.  At this 17-row failing
input an admissible sort outcome (`sBug`, the one introsort produces)
puts the incoming date-100 row first, so `drop_duplicates(keep='last')`
keeps the EXISTING record at price 10 instead of the incoming
correction at price 12: the program does not guarantee the claimed
incoming-wins behavior. -/
theorem merge_incoming_wins_bug :
    ∃ out, MergeResult dfBug (some liveBug) out ∧
      out.filter (fun r => r.date == 100) = [⟨100, 10, 1⟩] ∧
      (⟨100, 10, 1⟩ : PriceRec) ≠ ⟨100, 12, 1⟩ := by
  refine ⟨dropDupKeepLast sBug, ?_, by decide, by decide⟩
  have hne : liveBug ≠ [] := by decide
  simp only [MergeResult, if_neg hne]
  exact ⟨sBug,
    show List.Perm sBug (dfBug ++ liveBug) ∧ SortedLe sBug from
      ⟨by decide, by decide⟩, rfl⟩

/-- C4: for a strictly date-sorted existing series and any incoming
option, the merge result is sorted strictly ascending by date (hence
has no two rows with the same date), and every incoming row's date —
including backfill dates lying strictly before the store's maximum —
is present in the result, i.e. merged at its sorted position rather
than appended. -/
theorem merge_sorted_nodup (df : List PriceRec)
    (olive : Option (List PriceRec)) (hdf : SortedLt df) :
    SortedLt (update_df df olive) ∧
      ∀ live, olive = some live → ∀ rl ∈ live,
        ∃ r ∈ update_df df olive, r.date = rl.date := by
  match olive with
  | none =>
    refine ⟨hdf, ?_⟩
    intro live h
    cases h
  | some l =>
    by_cases hnil : l = []
    · subst hnil
      refine ⟨by simpa [update_df] using hdf, ?_⟩
      intro live h rl hrl
      cases h
      cases hrl
    · constructor
      · simp only [update_df, if_neg hnil]
        exact sortedLt_dropDupKeepLast (sortByDate_sortedLe _)
      · intro live h rl hrl
        have hinj := Option.some.inj h
        subst hinj
        have hfil := update_df_filter df l hnil rl.date
        have hmem : rl ∈ (df ++ l).filter (fun s => s.date == rl.date) :=
          List.mem_filter.mpr ⟨List.mem_append.mpr (Or.inr hrl), by simp⟩
        have hfne : (df ++ l).filter (fun s => s.date == rl.date) ≠ [] := by
          intro hcon
          rw [hcon] at hmem
          cases hmem
        have hlast := List.getLast?_eq_getLast _ hfne
        have hxmem := List.getLast_mem hfne
        refine ⟨((df ++ l).filter (fun s => s.date == rl.date)).getLast hfne,
          ?_, ?_⟩
        · have hmem2 :
              ((df ++ l).filter (fun s => s.date == rl.date)).getLast hfne ∈
                (update_df df (some l)).filter (fun s => s.date == rl.date) := by
            rw [hfil, hlast]
            simp
          exact (List.mem_filter.mp hmem2).1
        · have h3 := (List.mem_filter.mp hxmem).2
          simpa using h3

theorem merge_sorted_nodup_witness :
    SortedLt (update_df [⟨0, 10, 100⟩, ⟨5, 11, 50⟩] (some [⟨2, 9, 70⟩])) ∧
      ∃ r ∈ update_df [⟨0, 10, 100⟩, ⟨5, 11, 50⟩] (some [⟨2, 9, 70⟩]),
        r.date = 2 := by
  have h := merge_sorted_nodup [⟨0, 10, 100⟩, ⟨5, 11, 50⟩]
    (some [⟨2, 9, 70⟩]) (by decide)
  refine ⟨h.1, ?_⟩
  have h2 := h.2 [⟨2, 9, 70⟩] rfl ⟨2, 9, 70⟩ (by decide)
  exact h2

/-- C6: merging with `None` or an empty incoming frame returns the
existing series unchanged, and the merge is idempotent in the stated
sense: `update_df S (update_df S ∅) = update_df S ∅ = S` for a strictly
date-sorted store `S`. -/
theorem merge_empty_noop_idempotent (S : List PriceRec) (hS : SortedLt S) :
    update_df S none = S ∧ update_df S (some []) = S ∧
      update_df S (some (update_df S none)) = S := by
  refine ⟨rfl, by simp [update_df], ?_⟩
  show update_df S (some S) = S
  by_cases hnil : S = []
  · subst hnil
    simp [update_df]
  · simp only [update_df, if_neg hnil]
    have hperm : List.Perm (sortByDate (S ++ S)) (doubleEach S) :=
      (sortByDate_perm (S ++ S)).trans (perm_append_self_doubleEach S)
    have hkey : ∀ a ∈ sortByDate (S ++ S), ∀ b ∈ sortByDate (S ++ S),
        a.date = b.date → a = b := by
      intro a ha b hb hab
      have ha2 : a ∈ S := by
        rcases List.mem_append.mp ((sortByDate_perm (S ++ S)).subset ha) with
          h | h <;> exact h
      have hb2 : b ∈ S := by
        rcases List.mem_append.mp ((sortByDate_perm (S ++ S)).subset hb) with
          h | h <;> exact h
      exact date_inj_of_sortedLt hS a ha2 b hb2 hab
    have hEq : sortByDate (S ++ S) = doubleEach S :=
      eq_of_perm_sortedLe hperm (sortByDate_sortedLe _)
        (sortedLe_doubleEach hS) hkey
    rw [hEq, dropDup_doubleEach hS]

theorem merge_empty_noop_idempotent_witness :
    update_df [⟨0, 10, 100⟩, ⟨1, 11, 50⟩] none = [⟨0, 10, 100⟩, ⟨1, 11, 50⟩] ∧
      update_df [⟨0, 10, 100⟩, ⟨1, 11, 50⟩] (some []) =
        [⟨0, 10, 100⟩, ⟨1, 11, 50⟩] ∧
      update_df [⟨0, 10, 100⟩, ⟨1, 11, 50⟩]
          (some (update_df [⟨0, 10, 100⟩, ⟨1, 11, 50⟩] none)) =
        [⟨0, 10, 100⟩, ⟨1, 11, 50⟩] :=
  merge_empty_noop_idempotent [⟨0, 10, 100⟩, ⟨1, 11, 50⟩] (by decide)

/-- A fully indicated row: a `PriceRec` together with the indicator
columns added by `get_indicator_data`; NaN entries (warm-up or
undefined) are `none`. -/
structure IndRec where
  date : Int
  adj_close : ℚ
  volume : ℕ
  sma_20 : Option ℚ
  bollinger_upper : Option ℚ
  bollinger_lower : Option ℚ
  rsi_14 : Option ℚ
  macd : Option ℚ
  macd_signal : Option ℚ
  macd_diff : Option ℚ
deriving DecidableEq

/-- The trailing window `xs[i+1-w .. i]` of a rolling computation. -/
def windowAt (w : ℕ) (xs : List ℚ) (i : ℕ) : List ℚ :=
  (xs.take (i + 1)).drop (i + 1 - w)

/-- `Series.rolling(w, min_periods=w).mean()`: NaN (here `none`) until
`w` observations exist, afterwards the arithmetic mean of the trailing
`w` values. -/
def rollingMean (w : ℕ) (xs : List ℚ) (i : ℕ) : Option ℚ :=
  if w ≤ i + 1 ∧ i < xs.length then some ((windowAt w xs i).sum / w)
  else none

/-- `Series.rolling(w, min_periods=w).std(ddof=0) ** 2`: the rolling
population variance used by the `ta` Bollinger implementation. -/
def rollingVarP (w : ℕ) (xs : List ℚ) (i : ℕ) : Option ℚ :=
  if w ≤ i + 1 ∧ i < xs.length then
    some (((windowAt w xs i).map
      (fun x => (x - (windowAt w xs i).sum / w) ^ 2)).sum / w)
  else none

/-- `Series.ewm(adjust=False)` recursion after the seed: each output is
`(1-a)*previous + a*current`. -/
def emaFrom (a : ℚ) (y : ℚ) : List ℚ → List ℚ
  | [] => []
  | x :: xs => ((1 - a) * y + a * x) :: emaFrom a ((1 - a) * y + a * x) xs

/-- `Series.ewm(adjust=False).mean()`: seeded by the first value. -/
def emaList (a : ℚ) : List ℚ → List ℚ
  | [] => []
  | x :: xs => x :: emaFrom a x xs

/-- `MACD = EMA(span 12) - EMA(span 26)` of the closes, NaN for the
first 25 rows (`min_periods = 26` on the slow EMA). -/
def macdAt (xs : List ℚ) (i : ℕ) : Option ℚ :=
  if 26 ≤ i + 1 then
    match (emaList (2 / 13) xs)[i]?, (emaList (2 / 27) xs)[i]? with
    | some f, some s => some (f - s)
    | _, _ => none
  else none

/-- The non-NaN MACD values in order (pandas `ewm` skips leading NaNs
and seeds its recursion at the first defined input). -/
def macdValues (xs : List ℚ) : List ℚ :=
  (List.range xs.length).filterMap (fun i => macdAt xs i)

/-- `MACD_Signal = EMA(span 9, min_periods 9)` of the MACD column:
defined once 9 non-NaN MACD values exist, i.e. from row 33 on. -/
def macdSignalAt (xs : List ℚ) (i : ℕ) : Option ℚ :=
  if 34 ≤ i + 1 then (emaList (1 / 5) (macdValues xs))[i - 25]? else none

/-- `MACD_Diff = MACD - MACD_Signal` (NaN when either is NaN). -/
def macdDiffAt (xs : List ℚ) (i : ℕ) : Option ℚ :=
  match macdAt xs i, macdSignalAt xs i with
  | some m, some s => some (m - s)
  | _, _ => none

/-- Positive parts of the 1-step differences; the library's
`diff.where(diff > 0, 0.0)` turns the leading NaN into `0`. -/
def upMoves (xs : List ℚ) : List ℚ :=
  match xs with
  | [] => []
  | _ :: _ => 0 :: List.zipWith (fun a b => max (b - a) 0) xs xs.tail

/-- Negative parts of the 1-step differences, sign-flipped. -/
def dnMoves (xs : List ℚ) : List ℚ :=
  match xs with
  | [] => []
  | _ :: _ => 0 :: List.zipWith (fun a b => max (a - b) 0) xs xs.tail

/-- `RSI_14`: Wilder smoothing (`ewm(alpha=1/14, adjust=False)`) of up
and down moves, `100 - 100/(1+rs)`; NaN until 14 observations; a zero
average loss gives `100` when gains exist (numpy `x/0 = inf`) and NaN
when both averages are zero (`0/0 = nan`). -/
def rsiAt (xs : List ℚ) (i : ℕ) : Option ℚ :=
  if 14 ≤ i + 1 then
    match (emaList (1 / 14) (upMoves xs))[i]?,
        (emaList (1 / 14) (dnMoves xs))[i]? with
    | some u, some dn =>
      if dn = 0 then (if u = 0 then none else some 100)
      else some (100 - 100 / (1 + u / dn))
    | _, _ => none
  else none

/-- `Bollinger_Upper = SMA(20) + 2 * std(20)`; `sq` is the square root
applied to the rolling variance (irrational on `ℚ`, so abstracted). -/
def bollUpperAt (sq : ℚ → ℚ) (xs : List ℚ) (i : ℕ) : Option ℚ :=
  match rollingMean 20 xs i, rollingVarP 20 xs i with
  | some m, some v => some (m + 2 * sq v)
  | _, _ => none

/-- `Bollinger_Lower = SMA(20) - 2 * std(20)`. -/
def bollLowerAt (sq : ℚ → ℚ) (xs : List ℚ) (i : ℕ) : Option ℚ :=
  match rollingMean 20 xs i, rollingVarP 20 xs i with
  | some m, some v => some (m - 2 * sq v)
  | _, _ => none

/-- Row `i` of the indicated frame: every indicator is a function of the
FULL close series `s.map adj_close` and the row index — never of any
truncation of it. -/
def indicatorRow (sq : ℚ → ℚ) (s : List PriceRec) (i : ℕ) (r : PriceRec) :
    IndRec :=
  { date := r.date
    adj_close := r.adj_close
    volume := r.volume
    sma_20 := rollingMean 20 (s.map (fun p => p.adj_close)) i
    bollinger_upper := bollUpperAt sq (s.map (fun p => p.adj_close)) i
    bollinger_lower := bollLowerAt sq (s.map (fun p => p.adj_close)) i
    rsi_14 := rsiAt (s.map (fun p => p.adj_close)) i
    macd := macdAt (s.map (fun p => p.adj_close)) i
    macd_signal := macdSignalAt (s.map (fun p => p.adj_close)) i
    macd_diff := macdDiffAt (s.map (fun p => p.adj_close)) i }

/-- Lines 55-66: all indicator columns, computed over the whole series. -/
def addIndicators (sq : ℚ → ℚ) (s : List PriceRec) : List IndRec :=
  s.enum.map (fun p => indicatorRow sq s p.1 p.2)

/-- `get_indicator_data(df)` of lines 50-73: sort by date, compute all
indicator columns over the full history, then keep only the rows dated
within the trailing 365 days of `today` (`datetime.today()`). -/
def get_indicator_data (sq : ℚ → ℚ) (today : Int) (df : List PriceRec) :
    List IndRec :=
  (addIndicators sq (sortByDate df)).filter
    (fun r => decide (today - 365 ≤ r.date))

/-- C3: `get_indicator_data` computes every indicator column over the
full (sorted) input series and only afterwards restricts the output to
rows dated within the trailing 365 days: the output is exactly the
date-filter of the full-history computation, and each row of that
computation is a function of the whole sorted series and its index, so
the filter never changes any indicator input. -/
theorem indicators_full_history_then_filter (sq : ℚ → ℚ) (today : Int)
    (df : List PriceRec) :
    (∀ r, r ∈ get_indicator_data sq today df ↔
        r ∈ addIndicators sq (sortByDate df) ∧ today - 365 ≤ r.date) ∧
      ∀ i : ℕ, (addIndicators sq (sortByDate df))[i]? =
        ((sortByDate df)[i]?).map (indicatorRow sq (sortByDate df) i) := by
  constructor
  · intro r
    simp [get_indicator_data, List.mem_filter]
  · intro i
    simp [addIndicators, List.enum, Option.map_map]
    rfl

/-- C7: `get_indicator_data` is deterministic, with no hidden mutable
state: applied twice to (equal copies of) the output of `update_df`, it
returns identical indicator rows. -/
theorem indicators_deterministic (sq : ℚ → ℚ) (today : Int)
    (df : List PriceRec) (live : Option (List PriceRec))
    (s₁ s₂ : List PriceRec)
    (h₁ : s₁ = update_df df live) (h₂ : s₂ = update_df df live) :
    get_indicator_data sq today s₁ = get_indicator_data sq today s₂ := by
  rw [h₁, h₂]

theorem indicators_deterministic_witness :
    get_indicator_data id 400 (update_df [⟨0, 10, 100⟩] none) =
      get_indicator_data id 400 (update_df [⟨0, 10, 100⟩] none) :=
  indicators_deterministic id 400 [⟨0, 10, 100⟩] none
    (update_df [⟨0, 10, 100⟩] none) (update_df [⟨0, 10, 100⟩] none) rfl rfl

/-- The trading signal enumeration returned by `predict_signal`. -/
inductive Signal where
  | BUY
  | SELL
  | HOLD
deriving DecidableEq

/-- Python `a < b` under NaN semantics: a comparison involving a missing
value evaluates to `False`. -/
def pyLt (a b : Option ℚ) : Bool :=
  match a, b with
  | some x, some y => decide (x < y)
  | _, _ => false

/-- Python `a <= b` under NaN semantics. -/
def pyLe (a b : Option ℚ) : Bool :=
  match a, b with
  | some x, some y => decide (x ≤ y)
  | _, _ => false

/-- `predict_signal(row)` of lines 142-151: BUY on
`MACD > 0 and RSI_14 < 40 and Adj_Close <= Bollinger_Lower`, else SELL
on `MACD < 0 and RSI_14 > 60 and Adj_Close >= Bollinger_Upper`, else
HOLD.  NaN fields make every comparison they appear in `False`, and the
enclosing `try/except` also returns HOLD, so the function is total. -/
def predict_signal (row : IndRec) : Signal :=
  if pyLt (some 0) row.macd && pyLt row.rsi_14 (some 40) &&
      pyLe (some row.adj_close) row.bollinger_lower then Signal.BUY
  else if pyLt row.macd (some 0) && pyLt (some 60) row.rsi_14 &&
      pyLe row.bollinger_upper (some row.adj_close) then Signal.SELL
  else Signal.HOLD

/-- C2: with all required indicator fields defined, `predict_signal`
returns BUY exactly when `macd > 0 ∧ rsi14 < 40 ∧ adjClose ≤
bollingerLower`; otherwise SELL exactly when `macd < 0 ∧ rsi14 > 60 ∧
adjClose ≥ bollingerUpper`; otherwise HOLD — rules evaluated in this
order, first match wins. -/
theorem signal_rules (row : IndRec) (m v bu bl : ℚ)
    (hm : row.macd = some m) (hv : row.rsi_14 = some v)
    (hbu : row.bollinger_upper = some bu)
    (hbl : row.bollinger_lower = some bl) :
    (predict_signal row = Signal.BUY ↔
        (0 < m ∧ v < 40 ∧ row.adj_close ≤ bl)) ∧
      (predict_signal row = Signal.SELL ↔
        (¬(0 < m ∧ v < 40 ∧ row.adj_close ≤ bl) ∧
          (m < 0 ∧ 60 < v ∧ bu ≤ row.adj_close))) ∧
      (predict_signal row = Signal.HOLD ↔
        (¬(0 < m ∧ v < 40 ∧ row.adj_close ≤ bl) ∧
          ¬(m < 0 ∧ 60 < v ∧ bu ≤ row.adj_close))) := by
  unfold predict_signal
  rw [hm, hv, hbu, hbl]
  simp only [pyLt, pyLe]
  by_cases h1 : 0 < m ∧ v < 40 ∧ row.adj_close ≤ bl
  · rw [if_pos (by simp [h1.1, h1.2.1, h1.2.2])]
    refine ⟨by simp [h1], by simp [h1], by simp [h1]⟩
  · rw [if_neg (by
      simp only [Bool.and_eq_true, decide_eq_true_eq]
      intro hcon
      exact h1 ⟨hcon.1.1, hcon.1.2, hcon.2⟩)]
    by_cases h2 : m < 0 ∧ 60 < v ∧ bu ≤ row.adj_close
    · rw [if_pos (by simp [h2.1, h2.2.1, h2.2.2])]
      refine ⟨by simp [h1], by simp [h1, h2], by simp [h2]⟩
    · rw [if_neg (by
        simp only [Bool.and_eq_true, decide_eq_true_eq]
        intro hcon
        exact h2 ⟨hcon.1.1, hcon.1.2, hcon.2⟩)]
      refine ⟨by simp [h1], by simp [h1, h2], by simp [h1, h2]⟩

theorem signal_rules_witness :
    predict_signal
        ⟨0, 100, 0, none, some 200, some 101, some 35, some (3 / 2),
          none, none⟩ = Signal.BUY := by
  have h := signal_rules
    ⟨0, 100, 0, none, some 200, some 101, some 35, some (3 / 2), none, none⟩
    (3 / 2) 35 200 101 rfl rfl rfl rfl
  exact h.1.mpr (by norm_num)

/-- C5 counterexample: with `Bollinger_Upper` undefined (NaN) but the
BUY conditions met, `predict_signal` returns BUY, not HOLD — an
undefined required field does not force HOLD when only the other rule
reads it, refuting "returns HOLD regardless of the other fields". -/
theorem signal_undefined_band_not_hold :
    predict_signal
        ⟨0, 100, 0, none, none, some 101, some 35, some 2, none,
          none⟩ = Signal.BUY ∧ Signal.BUY ≠ Signal.HOLD := by
  constructor <;> decide

/-- C5 (amended): `predict_signal` is total — it always returns exactly
one of BUY, SELL, HOLD and never raises — and an undefined field
disables exactly the rules that read it: an undefined `macd` or `rsi14`
(read by both rules) forces HOLD regardless of the other fields, while
an undefined `bollinger_lower` only rules out BUY and an undefined
`bollinger_upper` only rules out SELL — the other rule can still fire,
so HOLD is not guaranteed in those two cases. -/
theorem signal_total_fail_safe :
    (∀ row : IndRec, predict_signal row = Signal.BUY ∨
        predict_signal row = Signal.SELL ∨
        predict_signal row = Signal.HOLD) ∧
      (∀ row : IndRec, row.macd = none →
        predict_signal row = Signal.HOLD) ∧
      (∀ row : IndRec, row.rsi_14 = none →
        predict_signal row = Signal.HOLD) ∧
      (∀ row : IndRec, row.bollinger_lower = none →
        predict_signal row ≠ Signal.BUY) ∧
      (∀ row : IndRec, row.bollinger_upper = none →
        predict_signal row ≠ Signal.SELL) := by
  refine ⟨?_, ?_, ?_, ?_, ?_⟩
  · intro row
    unfold predict_signal
    split_ifs <;> simp
  · intro row h
    simp [predict_signal, h, pyLt]
  · intro row h
    simp [predict_signal, h, pyLt]
  · intro row h
    unfold predict_signal
    rw [h]
    split_ifs with h1 h2
    · simp [pyLe] at h1
    · simp
    · simp
  · intro row h
    unfold predict_signal
    rw [h]
    split_ifs with h1 h2
    · simp
    · simp [pyLe] at h2
    · simp

theorem signal_total_fail_safe_witness :
    predict_signal
        ⟨0, 100, 0, none, some 200, some 90, none, some 5, none, none⟩ =
      Signal.HOLD :=
  signal_total_fail_safe.2.2.1
    ⟨0, 100, 0, none, some 200, some 90, none, some 5, none, none⟩ rfl

/-- The numpy float value domain where IEEE specials matter: finite
rationals plus `nan` and the infinities produced by division. -/
inductive PyFloat where
  | fin (q : ℚ)
  | nan
  | inf
  | ninf
deriving DecidableEq

/-- `Series.max()`: NaN on an empty column, else the maximum entry. -/
def colMax (l : List ℚ) : PyFloat :=
  match l with
  | [] => PyFloat.nan
  | x :: xs => PyFloat.fin (xs.foldl max x)

/-- numpy scalar division: it never raises; dividing by a zero maximum
emits only a runtime warning and yields `inf`, `-inf` or `nan`. -/
def npDiv : PyFloat → PyFloat → PyFloat
  | PyFloat.nan, _ => PyFloat.nan
  | _, PyFloat.nan => PyFloat.nan
  | PyFloat.fin a, PyFloat.fin b =>
    if b = 0 then
      if a = 0 then PyFloat.nan
      else if 0 < a then PyFloat.inf else PyFloat.ninf
    else PyFloat.fin (a / b)
  | PyFloat.fin _, PyFloat.inf => PyFloat.fin 0
  | PyFloat.fin _, PyFloat.ninf => PyFloat.fin 0
  | PyFloat.inf, PyFloat.fin b => if 0 ≤ b then PyFloat.inf else PyFloat.ninf
  | PyFloat.ninf, PyFloat.fin b => if 0 ≤ b then PyFloat.ninf else PyFloat.inf
  | PyFloat.inf, _ => PyFloat.nan
  | PyFloat.ninf, _ => PyFloat.nan

/-- The dataframe as `calculate_scale_value` sees it: a column access
raises (KeyError) exactly when the column is absent, modelled by
`none`. -/
structure Frame where
  adjClose : Option (List ℚ)
  volume : Option (List ℚ)

/-- `calculate_scale_value(df)` of lines 43-48: `Adj_Close.max() /
Volume.max()` guarded by a bare `except` returning `0.0001`.  Only the
column accesses can raise; the division itself cannot (numpy semantics),
so the fallback fires only for a missing column. -/
def calculate_scale_value (df : Frame) : PyFloat :=
  match df.adjClose, df.volume with
  | some ac, some vol => npDiv (colMax ac) (colMax vol)
  | _, _ => PyFloat.fin (1 / 10000)

/-- C9 counterexample: a frame with positive price and zero volume makes
`calculate_scale_value` return `inf`, not the documented `0.0001`
fallback — numpy's division by the zero maximum warns instead of
raising, so the `except` branch is never reached. -/
theorem scale_value_zero_volume_not_fallback :
    calculate_scale_value ⟨some [10], some [0]⟩ = PyFloat.inf ∧
      calculate_scale_value ⟨some [10], some [0]⟩ ≠
        PyFloat.fin (1 / 10000) := by
  constructor <;> decide

/-- C9 amended: `calculate_scale_value` returns max adjustedClose / max
volume when both columns exist and the volume maximum is nonzero; it
returns the `0.0001` fallback exactly when a column access raises (the
column is absent); when the volume maximum is zero the division follows
numpy semantics and yields a non-finite value (`inf` for a positive
price maximum), not the fallback. -/
theorem scale_value_spec (ac vol : List ℚ) (a v : ℚ)
    (hac : colMax ac = PyFloat.fin a) (hvol : colMax vol = PyFloat.fin v) :
    (v ≠ 0 →
        calculate_scale_value ⟨some ac, some vol⟩ = PyFloat.fin (a / v)) ∧
      (v = 0 → 0 < a →
        calculate_scale_value ⟨some ac, some vol⟩ = PyFloat.inf) ∧
      calculate_scale_value ⟨none, some vol⟩ = PyFloat.fin (1 / 10000) ∧
      calculate_scale_value ⟨some ac, none⟩ = PyFloat.fin (1 / 10000) := by
  refine ⟨?_, ?_, rfl, rfl⟩
  · intro hv
    show npDiv (colMax ac) (colMax vol) = PyFloat.fin (a / v)
    rw [hac, hvol]
    simp [npDiv, hv]
  · intro hv ha
    show npDiv (colMax ac) (colMax vol) = PyFloat.inf
    rw [hac, hvol, hv]
    simp [npDiv, ha, ne_of_gt ha]

theorem scale_value_spec_witness :
    calculate_scale_value ⟨some [10], some [2]⟩ = PyFloat.fin 5 := by
  have h := (scale_value_spec [10] [2] 10 2 (by decide) (by decide)).1
    (by norm_num)
  have h2 : (10 : ℚ) / 2 = 5 := by norm_num
  rw [h2] at h
  exact h

/-- A bar as the market data source returns it to `get_live`: the
source's raw close, the source's adjusted close (present in the fetched
frame but NOT selected by `get_live`), and the volume. -/
structure RawBar where
  date : Int
  close : ℚ
  adjclose : ℚ
  volume : ℕ
deriving DecidableEq

/-- `get_live(ticker)` of lines 104-129: `None` when the fetch comes
back empty; otherwise the frame restricted to `['Date','Close','Volume']`
with the raw `Close` column merely renamed — not recomputed — to
`Adj_Close` (lines 122-123). -/
def get_live (fetched : List RawBar) : Option (List PriceRec) :=
  if fetched = [] then none
  else some (fetched.map (fun b => ⟨b.date, b.close, b.volume⟩))

/-- C10 (implicit): every record `get_live` returns carries the source's
raw `Close` value relabeled into the `Adj_Close` field; consequently,
for a live date not yet in the store, every result the merge can
produce — whatever tie order the unstable sort chooses — holds exactly
that raw close (and live volume) at that date, so the most recent dates
of the Series Store may carry unadjusted prices while historical dates
keep their adjusted values. -/
theorem live_raw_close_kept (fetched : List RawBar) (hne : fetched ≠ []) :
    (∀ recs, get_live fetched = some recs →
        ∀ r ∈ recs, ∃ b ∈ fetched,
          r.date = b.date ∧ r.adj_close = b.close ∧ r.volume = b.volume) ∧
      ∀ (hist out : List PriceRec),
        SortedLt (fetched.map
          (fun c => (⟨c.date, c.close, c.volume⟩ : PriceRec))) →
        ∀ b ∈ fetched, (∀ rh ∈ hist, rh.date ≠ b.date) →
          MergeResult hist (get_live fetched) out →
          out.filter (fun s => s.date == b.date) =
            [⟨b.date, b.close, b.volume⟩] := by
  constructor
  · intro recs hrecs r hr
    rw [get_live, if_neg hne] at hrecs
    have hrecs2 := Option.some.inj hrecs
    subst hrecs2
    rcases List.mem_map.mp hr with ⟨b, hb, hbe⟩
    exact ⟨b, hb, by rw [← hbe], by rw [← hbe], by rw [← hbe]⟩
  · intro hist out hsorted b hb hfresh hm
    rw [get_live, if_neg hne] at hm
    have hmne : fetched.map
        (fun c => (⟨c.date, c.close, c.volume⟩ : PriceRec)) ≠ [] := by
      simpa using hne
    apply mergeResult_filter_singleton hmne hm
    rw [List.filter_append]
    have h1 : hist.filter (fun s => s.date == b.date) = [] := by
      refine List.filter_eq_nil_iff.mpr ?_
      intro x hx
      have := hfresh x hx
      simpa using this
    have h2 : (fetched.map
        (fun c => (⟨c.date, c.close, c.volume⟩ : PriceRec))).filter
          (fun s => s.date == b.date) = [⟨b.date, b.close, b.volume⟩] := by
      have := filter_eq_single_of_sortedLt hsorted
        (List.mem_map_of_mem
          (fun c => (⟨c.date, c.close, c.volume⟩ : PriceRec)) hb)
      simpa using this
    rw [h1, h2]
    rfl

theorem live_raw_close_kept_witness :
    (update_df [⟨-1, 48, 5⟩] (get_live [⟨0, 50, 49, 10⟩])).filter
        (fun s => s.date == (0 : Int)) = [⟨0, 50, 10⟩] := by
  have h := live_raw_close_kept [⟨0, 50, 49, 10⟩] (by decide)
  exact h.2 [⟨-1, 48, 5⟩] (update_df [⟨-1, 48, 5⟩] (get_live [⟨0, 50, 49, 10⟩]))
    (by decide) ⟨0, 50, 49, 10⟩ (by decide) (by decide)
    (update_df_mergeResult [⟨-1, 48, 5⟩] (get_live [⟨0, 50, 49, 10⟩]))

/-- The Python exceptions the loop of lines 167-186 distinguishes: a
`KeyboardInterrupt` (not an `Exception` subclass, so it passes through
`get_live`) or an ordinary `Exception` carrying a message — exactly the
two classes matched by the loop's `except` clauses. -/
inductive PyExc where
  | keyboardInterrupt
  | exc (msg : String)
deriving DecidableEq

/-- The body of one polling iteration (the `try` block, lines 168-179):
fetch — which may itself raise, e.g. an interrupt delivered during I/O —
then merge, recompute indicators, take the last row (`df.iloc[-1]`
raises IndexError on an empty frame) and evaluate the signal
(`predict_signal` is total, so it contributes no exception). -/
def loopBody (sq : ℚ → ℚ) (today : Int)
    (fetched : Except PyExc (Option (List PriceRec)))
    (df : List IndRec) : Except PyExc (List IndRec × Signal) := do
  let live ← fetched
  let newdf := update_df
    (df.map (fun r => (⟨r.date, r.adj_close, r.volume⟩ : PriceRec))) live
  let inddf := get_indicator_data sq today newdf
  match inddf.getLast? with
  | none => throw (PyExc.exc "single positional indexer is out-of-bounds")
  | some latest => pure (inddf, predict_signal latest)

/-- The observable fate of one loop iteration.  `crashed` is the
outcome an uncaught exception would produce; the claim is that no code
path yields it. -/
inductive LoopOutcome where
  | next (df : List IndRec)
  | stop
  | crashed (e : PyExc)
deriving DecidableEq

/-- One iteration of the `while True` loop with its `except` clauses:
`KeyboardInterrupt` breaks; any `Exception` is printed and the loop
sleeps and continues with the frame unchanged (lines 181-186). -/
def loopStep (sq : ℚ → ℚ) (today : Int)
    (fetched : Except PyExc (Option (List PriceRec)))
    (df : List IndRec) : LoopOutcome :=
  match loopBody sq today fetched df with
  | Except.ok (newdf, _) => LoopOutcome.next newdf
  | Except.error PyExc.keyboardInterrupt => LoopOutcome.stop
  | Except.error (PyExc.exc _) => LoopOutcome.next df

/-- The monitoring loop run over a finite script of fetch outcomes. -/
def runLoop (sq : ℚ → ℚ) (today : Int)
    (script : List (Except PyExc (Option (List PriceRec))))
    (df : List IndRec) : LoopOutcome :=
  match script with
  | [] => LoopOutcome.next df
  | f :: fs =>
    match loopStep sq today f df with
    | LoopOutcome.next newdf => runLoop sq today fs newdf
    | LoopOutcome.stop => LoopOutcome.stop
    | LoopOutcome.crashed e => LoopOutcome.crashed e

/-- C8: an error raised inside a polling iteration never terminates or
escapes the loop: a single step never crashes; an iteration whose body
raises an ordinary exception is caught at the iteration boundary and the
loop proceeds (with the frame unchanged) to its next scheduled wait; and
a whole run, whatever the fetch outcomes, never ends in `crashed`. -/
theorem loop_errors_contained (sq : ℚ → ℚ) (today : Int) :
    (∀ fetched df e, loopStep sq today fetched df ≠ LoopOutcome.crashed e) ∧
      (∀ fetched df m,
        loopBody sq today fetched df = Except.error (PyExc.exc m) →
          loopStep sq today fetched df = LoopOutcome.next df) ∧
      ∀ script df e, runLoop sq today script df ≠ LoopOutcome.crashed e := by
  have hstep : ∀ fetched df e,
      loopStep sq today fetched df ≠ LoopOutcome.crashed e := by
    intro fetched df e
    cases hb : loopBody sq today fetched df with
    | ok v =>
      obtain ⟨a, b⟩ := v
      simp [loopStep, hb]
    | error err => cases err <;> simp [loopStep, hb]
  refine ⟨hstep, ?_, ?_⟩
  · intro fetched df m h
    unfold loopStep
    rw [h]
  · intro script
    induction script with
    | nil =>
      intro df e
      simp [runLoop]
    | cons f fs ih =>
      intro df e
      cases hs : loopStep sq today f df with
      | next newdf =>
        simp only [runLoop, hs]
        exact ih newdf e
      | stop => simp [runLoop, hs]
      | crashed e2 => exact absurd hs (hstep f df e2)

theorem loop_errors_contained_witness :
    loopStep id 400 (Except.error (PyExc.exc "boom")) [] =
      LoopOutcome.next [] :=
  (loop_errors_contained id 400).2.1
    (Except.error (PyExc.exc "boom")) [] "boom" rfl
